import Mathlib

/-!
Verification development for the UnBind contract-analysis backend.

The embedding models the two core modules:

* app/services/pdf_processing.py  — semantic chunking of document text
* app/services/analysis_service.py — analysis pipeline, retrieval, simulation

Python strings are modelled as List Char (ASCII scope: the documents the
claims quantify over).  Python ints are Nat (all quantities here are
non-negative array indices and sizes).  Fallible external calls
(chat completion, embeddings) are modelled as oracle functions returning
Except, since the core never retries and only propagates or catches.
-/

/-- Python string literal helper. -/
def pyStr (s : String) : List Char := s.toList

/-- Whitespace class shared by Python str.strip and the regex class \s
(ASCII range): space, tab, newline, carriage return, vertical tab, form feed. -/
def isReWs (c : Char) : Bool :=
  c = ' ' || c = '\t' || c = '\n' || c = '\r' || c = '\x0B' || c = '\x0C'

/-- Python str.strip(): drop leading and trailing whitespace. -/
def pyStrip (l : List Char) : List Char :=
  ((l.dropWhile isReWs).reverse.dropWhile isReWs).reverse

/-- Python slice s[a:b] for 0 <= a <= b (b may exceed the length). -/
def pySlice (a b : Nat) (l : List Char) : List Char :=
  (l.drop a).take (b - a)

/-- Python slice s[-n:].  For n = 0 this is the whole string (s[-0:] = s[0:]);
for n >= 1 it is the last min(n, len) characters. -/
def pySliceLast (n : Nat) (l : List Char) : List Char :=
  if n = 0 then l else l.drop (l.length - n)

/-- Does pat occur as a prefix of l (character-exact match)? -/
def patAt : List Char → List Char → Bool
  | [], _ => true
  | _ :: _, [] => false
  | p :: ps, c :: cs => p = c && patAt ps cs

/-- Largest index j <= n with p j, as an Int, or -1 when there is none.
This is the shape of a right-to-left scan such as Python str.rfind. -/
def lastIdxSat (p : Nat → Bool) : Nat → Int
  | 0 => if p 0 then 0 else -1
  | n + 1 => if p (n + 1) then ((n + 1 : Nat) : Int) else lastIdxSat p n

/-- Python str.rfind(pat): highest index where pat occurs, or -1. -/
def pyRfind (hay pat : List Char) : Int :=
  lastIdxSat (fun j => patAt pat (hay.drop j)) hay.length

/-! ### Overlap-tail extraction (pdf_processing._get_overlap_text) -/

/-- Character class [.!?] of the sentence-boundary regex. -/
def isPunct3 (c : Char) : Bool := c = '.' || c = '!' || c = '?'

/-- Attempt to match the regex [.!?]\s+[A-Z] at the head of l, returning the
matched substring (re group 0).  The greedy \s+ takes the maximal whitespace
run; a shorter run cannot succeed since the following character would then be
whitespace, not [A-Z], so maximal munch is exact here. -/
def tryMatch (l : List Char) : Option (List Char) :=
  match l with
  | [] => none
  | c :: rest =>
    if isPunct3 c then
      let ws := rest.takeWhile isReWs
      if ws.isEmpty then none
      else
        match rest.drop ws.length with
        | [] => none
        | u :: _ => if u.isUpper then some (c :: ws ++ [u]) else none
    else none

/-- Python re.search for [.!?]\s+[A-Z]: first (leftmost) match in l. -/
def reSearch : List Char → Option (List Char)
  | [] => none
  | c :: rest =>
    match tryMatch (c :: rest) with
    | some g => some g
    | none => reSearch rest

/-- Embedding of pdf_processing._get_overlap_text.  The Python window size
int(overlap_size * 1.5) is exactly floor(3 * ov / 2) (the float product 1.5*ov
is exact for any realistic ov).  When rfind misses (impossible here, since the
matched string does occur), Python would yield index -1, hence start 0;
(pyRfind + 1).toNat reproduces that. -/
def getOverlapText (t : List Char) (ov : Nat) : List Char :=
  if t.length ≤ ov then t
  else
    let area := pySliceLast (3 * ov / 2) t
    match reSearch area with
    | some g => pyStrip (t.drop ((pyRfind t g + 1).toNat))
    | none => pySliceLast ov t

/-! ### Oversize-section splitting (pdf_processing._split_large_section) -/

/-- The four break-point strings probed by rfind, in source order. -/
def nlnl : List Char := ['\n', '\n']
def nl1 : List Char := ['\n']
def dotSp : List Char := ['.', ' ']
def commaSp : List Char := [',', ' ']

/-- Embedding of the loop body that picks the end position of the next chunk:
when a full stride fits strictly inside the section, rfind the four break
strings inside section[start+cs-ov : start+cs+ov]; the source filters out the
-1 misses and takes the max of the rest, which equals folding max over all
four results with identity -1 (every rfind is >= -1). -/
def chooseEnd (s : List Char) (cs ov start : Nat) : Nat :=
  let end0 := start + cs
  if end0 < s.length then
    let area := pySlice (start + cs - ov) (end0 + ov) s
    let cands := [pyRfind area nlnl, pyRfind area nl1, pyRfind area dotSp, pyRfind area commaSp]
    let best := cands.foldl max (-1)
    if best ≠ -1 then start + (cs - ov) + best.toNat else end0
  else end0

/-- Fueled while-loop of _split_large_section.  Each iteration strips the
slice section[start:end], keeps it when non-empty, and restarts at end - ov.
none signals fuel exhaustion (cannot happen when cs > 2*ov, see claim C10). -/
def splitGo (s : List Char) (cs ov : Nat) : Nat → Nat → Option (List (List Char))
  | 0, _ => none
  | fuel + 1, start =>
    if start < s.length then
      let e := chooseEnd s cs ov start
      let chunk := pyStrip (pySlice start e s)
      match splitGo s cs ov fuel (e - ov) with
      | none => none
      | some rest => some (if chunk.isEmpty then rest else chunk :: rest)
    else some []

/-- Embedding of pdf_processing._split_large_section.  Fuel length+1 always
suffices under the pipeline configurations (chunk_size > 2*overlap); the getD
branch is dead code under that precondition. -/
def splitLargeSection (s : List Char) (cs ov : Nat) : List (List Char) :=
  (splitGo s cs ov (s.length + 1) 0).getD []



/-! ### Section parser (pdf_processing._parse_with_regex and friends) -/

/-- Replace every CRLF pair by a single newline (re.sub of \r\n). -/
def subCRLF : List Char → List Char
  | [] => []
  | '\r' :: '\n' :: r => '\n' :: subCRLF r
  | c :: r => c :: subCRLF r

/-- Replace remaining carriage returns by newlines (re.sub of \r). -/
def subCR (l : List Char) : List Char :=
  l.map fun c => if c = '\r' then '\n' else c

/-- Helper for collapsing newline runs: run is the count of pending
consecutive newlines already read. -/
def collapseNl3Aux : Nat → List Char → List Char
  | run, [] => List.replicate (if run ≥ 3 then 2 else run) '\n'
  | run, c :: r =>
    if c = '\n' then collapseNl3Aux (run + 1) r
    else List.replicate (if run ≥ 3 then 2 else run) '\n' ++ c :: collapseNl3Aux 0 r

/-- Collapse every run of 3 or more newlines to exactly two (re.sub \n{3,}). -/
def collapseNl3 (l : List Char) : List Char := collapseNl3Aux 0 l

/-- Helper for collapsing space/tab runs; pending records an open run. -/
def collapseSpTabAux : Bool → List Char → List Char
  | pending, [] => if pending then [' '] else []
  | pending, c :: r =>
    if c = ' ' || c = '\t' then collapseSpTabAux true r
    else if pending then ' ' :: c :: collapseSpTabAux false r
    else c :: collapseSpTabAux false r

/-- Collapse every run of spaces and tabs to a single space (re.sub [ \t]+). -/
def collapseSpTab (l : List Char) : List Char := collapseSpTabAux false l

/-- Split on newline characters, keeping empty pieces (Python split of a line
separator). -/
def splitNlAux : List Char → List Char → List (List Char)
  | acc, [] => [acc.reverse]
  | acc, c :: r => if c = '\n' then acc.reverse :: splitNlAux [] r else splitNlAux (c :: acc) r

def splitNl (l : List Char) : List (List Char) := splitNlAux [] l

/-- Regex separator \n\s*\n attempted at the head of l: the greedy \s* plus
backtracking consume whitespace through the last newline of the maximal
whitespace run following the first newline.  Returns the remainder after the
matched separator, or none. -/
def sepBlankMatch (l : List Char) : Option (List Char) :=
  match l with
  | '\n' :: r =>
    let ws := r.takeWhile isReWs
    let k := lastIdxSat (fun j => ws.getD j 'x' = '\n') ws.length
    if k = -1 then none else some (r.drop (k.toNat + 1))
  | _ => none

/-- Fueled scan implementing re.split of \n\s*\n (leftmost, non-overlapping) . -/
def splitBlankGo : Nat → List Char → List Char → List (List Char)
  | 0, acc, rest => [acc.reverse ++ rest]
  | _ + 1, acc, [] => [acc.reverse]
  | fuel + 1, acc, c :: r =>
    match sepBlankMatch (c :: r) with
    | some rest2 => acc.reverse :: splitBlankGo fuel [] rest2
    | none => splitBlankGo fuel (c :: acc) r

def splitBlank (l : List Char) : List (List Char) := splitBlankGo (l.length + 1) [] l

/-- Tail check \.?\s after a matched token run: an optional dot then one
whitespace character.  Backtracking over the optional dot cannot succeed when
the greedy path fails, because a dot is not whitespace. -/
def optDotWs : List Char → Bool
  | '.' :: c :: _ => isReWs c
  | '.' :: [] => false
  | c :: _ => isReWs c
  | [] => false

/-- Consume the (\.\d+)* groups after the leading digit run, counting them;
the fuel is the length of the remaining input. -/
def dotDigitGroups : Nat → List Char → Nat × List Char
  | 0, l => (0, l)
  | fuel + 1, l =>
    match l with
    | '.' :: r =>
      let ds := r.takeWhile Char.isDigit
      if ds.isEmpty then (0, l)
      else
        let (n, rest) := dotDigitGroups fuel (r.drop ds.length)
        (n + 1, rest)
    | _ => (0, l)

/-- Match ^\d+(\.\d+)*\.?\s and return the count of dot-separated numeric
groups, giving both the heading predicate branch and the level computation
len(m.group(1).split(".")).  Dropping trailing (\.\d+)* groups can never turn
a failed tail check into success (the next character would be a dot or a
digit, neither whitespace), so greedy parsing is exact. -/
def matchNumOutline (l : List Char) : Option Nat :=
  let ds := l.takeWhile Char.isDigit
  if ds.isEmpty then none
  else
    let rest := l.drop ds.length
    let (g, rest2) := dotDigitGroups rest.length rest
    if optDotWs rest2 then some (g + 1) else none

def isRomanChar (c : Char) : Bool := c = 'I' || c = 'V' || c = 'X'

/-- Match ^[IVX]+\.?\s. -/
def matchRoman (l : List Char) : Bool :=
  let rs := l.takeWhile isRomanChar
  !rs.isEmpty && optDotWs (l.drop rs.length)

/-- Match ^[A-Z]\.?\s (a single capital letter). -/
def matchCapital : List Char → Bool
  | c :: r => c.isUpper && optDotWs r
  | [] => false

/-- Python first_line == first_line.upper() for ASCII text: no lowercase
letter occurs. -/
def pyUpperEq (l : List Char) : Bool := l.all fun c => !c.isLower

def sectionWords : List (List Char) :=
  [pyStr "section", pyStr "chapter", pyStr "part", pyStr "article",
   pyStr "clause", pyStr "schedule", pyStr "appendix", pyStr "exhibit"]

/-- Case-insensitive ASCII prefix test (re.I on a lowercase pattern word). -/
def ciPrefix : List Char → List Char → Bool
  | [], _ => true
  | _ :: _, [] => false
  | p :: ps, c :: cs => p = c.toLower && ciPrefix ps cs

/-- Tail \s+\d+ after one of the keywords. -/
def wsThenDigit (l : List Char) : Bool :=
  let ws := l.takeWhile isReWs
  !ws.isEmpty &&
    match l.drop ws.length with
    | c :: _ => c.isDigit
    | [] => false

/-- Match ^(section|chapter|part|article|clause|schedule|appendix|exhibit)\s+\d+
case-insensitively; no keyword is a prefix of another, so trying each
alternative independently is exact. -/
def matchSectionWord (l : List Char) : Bool :=
  sectionWords.any fun w => ciPrefix w l && wsThenDigit (l.drop w.length)

/-- Embedding of pdf_processing._is_likely_heading. -/
def isLikelyHeading (text : List Char) : Bool :=
  let lines := splitNl text
  if lines.length > 3 then false
  else
    let firstLine := pyStrip (lines.headD [])
    if firstLine.isEmpty then false
    else
      (matchNumOutline firstLine).isSome
      || matchRoman firstLine
      || matchCapital firstLine
      || (pyUpperEq firstLine && decide (3 < firstLine.length) && decide (firstLine.length < 100))
      || matchSectionWord firstLine
      || (decide (firstLine.length < 80) && firstLine.getLast? = some ':')
      || (decide (firstLine.length < 60) && lines.length = 1)

/-- Embedding of pdf_processing._get_heading_level. -/
def getHeadingLevel (heading : List Char) : Nat :=
  let firstLine := pyStrip ((splitNl heading).headD [])
  match matchNumOutline firstLine with
  | some n => n
  | none =>
    if matchRoman firstLine then 1
    else if matchCapital firstLine then 2
    else 1

/-- List-item patterns ^\s*[-•*]\s, ^\s*\d+\.\s, ^\s*[a-z]\)\s, ^\s*\([a-z]\)\s.
The leading \s* is greedy and exact (a shorter run leaves whitespace where a
marker character is required). -/
def isListLine (l : List Char) : Bool :=
  let body := l.dropWhile isReWs
  (match body with
   | c :: c2 :: _ => (c = '-' || c = '•' || c = '*') && isReWs c2
   | _ => false)
  ||
  (let ds := body.takeWhile Char.isDigit
   !ds.isEmpty &&
     match body.drop ds.length with
     | '.' :: c :: _ => isReWs c
     | _ => false)
  ||
  (match body with
   | a :: ')' :: c :: _ => a.isLower && isReWs c
   | _ => false)
  ||
  (match body with
   | '(' :: a :: ')' :: c :: _ => a.isLower && isReWs c
   | _ => false)

/-- Embedding of pdf_processing._is_likely_list: more than half of the lines
match a list pattern (matches > len * 0.5 is 2 * matches > len over ints). -/
def isLikelyList (text : List Char) : Bool :=
  let lines := splitNl text
  decide (2 * (lines.filter isListLine).length > lines.length)

/-- Count separators for re.split(\s{2,}|\t): a maximal whitespace run of
length >= 2 is one separator; otherwise a lone tab is one separator. -/
def sepCountAux : Nat → List Char → Nat
  | 0, _ => 0
  | fuel + 1, l =>
    match l with
    | [] => 0
    | c :: r =>
      let ws := (c :: r).takeWhile isReWs
      if ws.length ≥ 2 then 1 + sepCountAux fuel ((c :: r).drop ws.length)
      else if c = '\t' then 1 + sepCountAux fuel r
      else sepCountAux fuel r

/-- Number of fields of re.split(\s{2,}|\t, line) (empty fields included). -/
def fieldCount (l : List Char) : Nat := 1 + sepCountAux l.length l

/-- Embedding of pdf_processing._is_likely_table. -/
def isLikelyTable (text : List Char) : Bool :=
  let lines := splitNl text
  let hasMultiCols := lines.any fun l => decide (fieldCount l ≥ 3)
  let enoughLines := decide ((lines.filter fun l => !(pyStrip l).isEmpty).length > 2)
  hasMultiCols && enoughLines

/-- Data model of pdf_processing.SemanticSection (type_ is the Python
constructor parameter name; the stored tag strings are as in the source). -/
structure SemanticSection where
  type_ : List Char
  content : List Char
  level : Nat
deriving DecidableEq

/-- Embedding of pdf_processing._parse_with_regex. -/
def parseWithRegex (text : List Char) : List SemanticSection :=
  let normalised := pyStrip (collapseSpTab (collapseNl3 (subCR (subCRLF text))))
  let paragraphs := splitBlank normalised
  paragraphs.filterMap fun para =>
    let trimmed := pyStrip para
    if trimmed.isEmpty then none
    else if isLikelyHeading trimmed then
      some ⟨pyStr "heading", trimmed, getHeadingLevel trimmed⟩
    else if isLikelyList trimmed then some ⟨pyStr "list", trimmed, 1⟩
    else if isLikelyTable trimmed then some ⟨pyStr "table", trimmed, 1⟩
    else some ⟨pyStr "paragraph", trimmed, 1⟩


/-! ### Chunk assembly (pdf_processing._sections_to_chunks, chunk_text) -/

/-- Separator inserted between packed sections. -/
def nlnlSep : List Char := ['\n', '\n']

/-- One iteration of the _sections_to_chunks loop over (chunks, current).
First the pack-or-emit decision; then, when the section itself exceeds
chunk_size, the section is re-split: the first fragment replaces the
accumulator and the remaining fragments are appended as chunks.  The source
indexes subs[0] directly; a parser-produced section is non-blank, so subs is
never empty there, and headD [] only covers inputs the source would crash on. -/
def sectionsStep (cs ov : Nat) (st : List (List Char) × List Char) (content : List Char) :
    List (List Char) × List Char :=
  let chunks := st.1
  let current := st.2
  let sLen := content.length
  let packed :=
    if current.length + sLen > cs ∧ ¬current.isEmpty then
      let over := getOverlapText current ov
      (chunks ++ [pyStrip current],
       over ++ (if over.isEmpty then [] else nlnlSep) ++ content)
    else
      (chunks, if current.isEmpty then content else current ++ nlnlSep ++ content)
  if sLen > cs then
    let subs := splitLargeSection content cs ov
    (packed.1 ++ subs.tail, subs.headD [])
  else packed

/-- Embedding of pdf_processing._sections_to_chunks. -/
def sectionsToChunks (sections : List SemanticSection) (cs ov : Nat) : List (List Char) :=
  let st := sections.foldl (fun st sec => sectionsStep cs ov st sec.content) ([], [])
  if (pyStrip st.2).isEmpty then st.1 else st.1 ++ [pyStrip st.2]

/-- Embedding of pdf_processing.chunk_text (defaults 4000/300 are supplied at
the call sites, as in the source). -/
def chunk_text (text : List Char) (cs ov : Nat) : List (List Char) :=
  if text.length ≤ cs then [text]
  else sectionsToChunks (parseWithRegex text) cs ov

/-- Embedding of pdf_processing.convert_pdf_to_markdown. -/
def convert_pdf_to_markdown (pdfText : List Char) : List Char :=
  let md := collapseNl3 (subCR (subCRLF pdfText))
  let lines := splitNl md
  let result := lines.map fun line =>
    let stripped := pyStrip line
    if stripped.isEmpty then []
    else if isLikelyHeading stripped then
      List.replicate (getHeadingLevel stripped) '#' ++ [' '] ++ stripped
    else stripped
  pyStrip (List.intercalate ['\n'] result)




/-! ### Analysis service (analysis_service.py)

External capabilities are oracle parameters.  A transport/protocol failure of
the text-generation or embedding capability is an Except.error; the payloads
the pipeline merely forwards (clause findings) are an arbitrary type alpha.
math.sqrt on floats is modelled by an arbitrary function sqrtF on the rational
vector components: every claim under verification is invariant under the
choice of sqrtF, which keeps the embedding executable. -/

/-- Embedding of analysis_service._cosine_similarity over rationals, with the
norm computation parameterised by sqrtF (math.sqrt).  Python "na * nb or 1.0"
selects 1.0 exactly when the product is zero. -/
def cosineSimilarity (sqrtF : ℚ → ℚ) (a b : List ℚ) : ℚ :=
  let dot := (List.zipWith (fun x y => x * y) a b).sum
  let na := sqrtF (a.map (fun x => x * x)).sum
  let nb := sqrtF (b.map (fun y => y * y)).sum
  let denom := if na * nb = 0 then 1 else na * nb
  dot / denom

/-- Stable insertion of a (index, score) pair into a list sorted by
descending score: the new element goes in front of the first element whose
score is not greater.  foldr over this insert is a stable sort, which is the
documented behaviour of Python sorted(key=score, reverse=True). -/
def insDesc (x : Nat × ℚ) : List (Nat × ℚ) → List (Nat × ℚ)
  | [] => [x]
  | y :: ys => if y.2 ≤ x.2 then x :: y :: ys else y :: insDesc x ys

/-- Python sorted(pairs, key=score, reverse=True): stable, descending. -/
def pySortDesc (l : List (Nat × ℚ)) : List (Nat × ℚ) := l.foldr insDesc []

/-- Embedding of analysis_service._vector_retrieve_relevant_chunks.  The
embedding capability is the oracle embedO; any exception it raises is caught
by the try/except and degrades to returning chunks unchanged, as does a
vector-count mismatch.  The final guard returns chunks when selected is
empty. -/
def vectorRetrieveRelevantChunks (sqrtF : ℚ → ℚ)
    (embedO : List (List Char) → Except Unit (List (List ℚ)))
    (chunks : List (List Char)) (query : List Char) (topK : Nat) : List (List Char) :=
  match embedO (chunks ++ [query]) with
  | Except.error _ => chunks
  | Except.ok vectors =>
    if vectors.length ≠ chunks.length + 1 then chunks
    else
      let queryVec := vectors.getLastD []
      let chunkVecs := vectors.dropLast
      let scored := pySortDesc ((chunkVecs.enum).map fun p =>
        (p.1, cosineSimilarity sqrtF p.2 queryVec))
      let selected := (scored.take (min topK scored.length)).map fun p => chunks.getD p.1 []
      if selected.isEmpty then chunks else selected

/-- Pipeline error taxonomy of analyze_contract: a capability transport
failure, the empty-result RuntimeError, and the synthesis-parse RuntimeError. -/
inductive PipelineError where
  | transport : PipelineError
  | emptyResult : List Char → PipelineError
  | synthesisParse : List Char → PipelineError
deriving DecidableEq

/-- Terminal artifact of analyze_contract: the synthesized payload dict
(kept abstract here), the flattened clauses, and the chunk summaries, where the
chunkSummaries key of the synthesized dict is overridden by the computed
summaries ({**final_report, "chunkSummaries": chunk_summaries}). -/
structure AnalysisReport (α : Type) where
  payload : List Char
  clauses : List α
  chunkSummaries : List (Nat × List Char)

/-- math.ceil(a / b) for positive b (exact for the int ranges in play). -/
def ceilDiv (a b : Nat) : Nat := (a + b - 1) / b

/-- Embedding of analysis_service._create_chunk_summaries.  sumO models the
chat_complete call of chunk i: it receives the chunk index, the chunk text,
the clause slice clauses[i*per : min(i*per+per, len)], and the role, and
returns the raw completion text (or a transport error).  The summary entry is
(i + 1, output.strip()). -/
def createChunkSummaries {α : Type}
    (sumO : Nat → List Char → List α → List Char → Except Unit (List Char))
    (chunks : List (List Char)) (clauses : List α) (role : List Char) :
    Except Unit (List (Nat × List Char)) :=
  let perChunk := if chunks.isEmpty then clauses.length
                  else ceilDiv clauses.length chunks.length
  (chunks.enum).mapM fun p => do
    let start := p.1 * perChunk
    let stop := min (start + perChunk) clauses.length
    let chunkClauses := (clauses.drop start).take (stop - start)
    let output ← sumO p.1 p.2 chunkClauses role
    Except.ok (p.1 + 1, pyStrip output)

/-- The message of the empty-result failure, verbatim from the source. -/
def emptyResultMsg : List Char :=
  pyStr "No legal clauses were identified in the document. It might be too short or in an unsupported format."

/-- Embedding of analysis_service.analyze_contract.  extractO models
_analyze_chunk (one generation call per chunk; a JSON-parse failure already
degrades to [] inside _analyze_chunk, so only transport failures surface);
asyncio.gather propagates such a failure and preserves input order for the
successes.  synthO models _synthesize_report: a transport failure, a
parse failure (ok none, raised as the synthesis RuntimeError), or the parsed
payload.  The progress callback is a side channel with no effect on results
and is not modelled. -/
def analyze_contract {α : Type}
    (extractO : List Char → List Char → Except Unit (List α))
    (sumO : Nat → List Char → List α → List Char → Except Unit (List Char))
    (synthO : List α → List Char → Except Unit (Option (List Char)))
    (documentText role : List Char) : Except PipelineError (AnalysisReport α) :=
  let markdownText := convert_pdf_to_markdown documentText
  let chunks := chunk_text markdownText 4000 300
  match chunks.mapM (fun c => extractO c role) with
  | Except.error _ => Except.error PipelineError.transport
  | Except.ok chunkResults =>
    let allClauses := chunkResults.flatten
    if allClauses.isEmpty then
      Except.error (PipelineError.emptyResult emptyResultMsg)
    else
      match createChunkSummaries sumO chunks allClauses role with
      | Except.error _ => Except.error PipelineError.transport
      | Except.ok chunkSummaries =>
        match synthO allClauses role with
        | Except.error _ => Except.error PipelineError.transport
        | Except.ok none =>
          Except.error (PipelineError.synthesisParse (pyStr "Failed to parse synthesis JSON"))
        | Except.ok (some payload) => Except.ok ⟨payload, allClauses, chunkSummaries⟩

/-- Externally visible effects of simulate_impact, in order of occurrence. -/
inductive SimEvent where
  | chunked : SimEvent
  | embedCall : SimEvent
  | genCall : SimEvent
deriving DecidableEq

/-- Fixed guidance string returned for a blank scenario, verbatim. -/
def emptyScenarioMsg : List Char := pyStr "Please enter a scenario to simulate."

/-- Fixed message returned when retrieval yields nothing, verbatim. -/
def notFoundMsg : List Char :=
  pyStr "Could not find any information in the document relevant to your scenario. Please try rephrasing your question or check if the topic is covered in the contract."

/-- Embedding of analysis_service.simulate_impact, instrumented with the list
of external effects it performs (chunking, the embedding call inside
retrieval, the generation call).  genO models the final chat_complete call
(scenario, joined excerpt context). -/
def simulate_impact (sqrtF : ℚ → ℚ)
    (embedO : List (List Char) → Except Unit (List (List ℚ)))
    (genO : List Char → List Char → List Char)
    (documentText scenario : List Char) : List Char × List SimEvent :=
  if (pyStrip scenario).isEmpty then (emptyScenarioMsg, [])
  else
    let chunks := chunk_text documentText 1500 200
    let relevant := vectorRetrieveRelevantChunks sqrtF embedO chunks scenario 6
    if relevant.isEmpty then (notFoundMsg, [SimEvent.chunked, SimEvent.embedCall])
    else
      let context := List.intercalate (pyStr "\n\n---\n\n") relevant
      (genO scenario context, [SimEvent.chunked, SimEvent.embedCall, SimEvent.genCall])

/-! ### Specification models

The following definitions formalise wordings of the specification (or of its
amended forms) independently of the embedded source functions, so that the
claims can be stated as comparisons. -/

/-- Does any of the four break strings occur at position j of the window? -/
def breakAt (area : List Char) (j : Nat) : Bool :=
  patAt nlnl (area.drop j) || patAt nl1 (area.drop j) ||
  patAt dotSp (area.drop j) || patAt commaSp (area.drop j)

/-- Modelled from the amended claim C2: the cut offset is the greatest
position in the window at which any of the four break strings occurs; a hard
cut at exactly chunkSize happens only when no break string occurs at all. -/
def specChooseEnd (s : List Char) (cs ov start : Nat) : Nat :=
  let end0 := start + cs
  if end0 < s.length then
    let area := pySlice (start + cs - ov) (end0 + ov) s
    let best := lastIdxSat (fun j => breakAt area j) area.length
    if best ≠ -1 then start + (cs - ov) + best.toNat else end0
  else end0

/-- Modelled from the spec wording of claim C2: the split point preferred by
kind, in order paragraph break, line break, sentence end, comma; the cut is
made at the last occurrence of the most preferred kind that occurs at all. -/
def specPrefChooseEnd (s : List Char) (cs ov start : Nat) : Nat :=
  let end0 := start + cs
  if end0 < s.length then
    let area := pySlice (start + cs - ov) (end0 + ov) s
    if pyRfind area nlnl ≠ -1 then start + (cs - ov) + (pyRfind area nlnl).toNat
    else if pyRfind area nl1 ≠ -1 then start + (cs - ov) + (pyRfind area nl1).toNat
    else if pyRfind area dotSp ≠ -1 then start + (cs - ov) + (pyRfind area dotSp).toNat
    else if pyRfind area commaSp ≠ -1 then start + (cs - ov) + (pyRfind area commaSp).toNat
    else end0
  else end0

/-- Boundary shape claimed by C3: a literal dot, a single space, then a
capital letter, at position i of the window. -/
def dotSpCapAt (l : List Char) (i : Nat) : Bool :=
  match l.drop i with
  | '.' :: ' ' :: c :: _ => c.isUpper
  | _ => false

/-- Least index in [i, i + fuel) satisfying p. -/
def firstIdxSatAux (p : Nat → Bool) : Nat → Nat → Option Nat
  | _, 0 => none
  | i, fuel + 1 => if p i then some i else firstIdxSatAux p (i + 1) fuel

/-- Least index below n satisfying p. -/
def firstIdxSat (p : Nat → Bool) (n : Nat) : Option Nat := firstIdxSatAux p 0 n

/-- Modelled from the spec wording of claim C3: inspect the last 1.5*overlap
characters; if a sentence boundary, a dot followed by one space and a capital
letter, occurs in that window, return the tail of the chunk starting just
after the first such boundary (at its capital letter); otherwise return the
last overlap characters verbatim. -/
def specC3OverlapTail (t : List Char) (ov : Nat) : List Char :=
  let w := 3 * ov / 2
  let d := t.length - w
  let area := pySliceLast w t
  match firstIdxSat (fun i => dotSpCapAt area i) area.length with
  | some i => t.drop (d + i + 2)
  | none => pySliceLast ov t

/-- Stable insertion for the strict lexicographic order: descending score,
ties by ascending original index.  This order is total and antisymmetric on
pairs with distinct indices, so the sorted result is unique — an
implementation-independent statement of ranked retrieval. -/
def insLex (x : Nat × ℚ) : List (Nat × ℚ) → List (Nat × ℚ)
  | [] => [x]
  | y :: ys =>
    if y.2 < x.2 ∨ (x.2 = y.2 ∧ x.1 ≤ y.1) then x :: y :: ys else y :: insLex x ys

def sortLex (l : List (Nat × ℚ)) : List (Nat × ℚ) := l.foldr insLex []

/-- Modelled from the spec of claim C7: rank the chunk texts by descending
cosine similarity against the query vector (the last returned vector), ties
broken by ascending original index, truncated to the top min(topK, n). -/
def specRankedRetrieve (sqrtF : ℚ → ℚ) (chunks : List (List Char))
    (vectors : List (List ℚ)) (topK : Nat) : List (List Char) :=
  let queryVec := vectors.getLastD []
  let chunkVecs := vectors.dropLast
  let scored := sortLex ((chunkVecs.enum).map fun p =>
    (p.1, cosineSimilarity sqrtF p.2 queryVec))
  (scored.take (min topK scored.length)).map fun p => chunks.getD p.1 []

/-- Findings slice of chunk i under even slicing with stride per:
clauses[i*per : min(i*per + per, len)]. -/
def clauseSlice {α : Type} (clauses : List α) (per i : Nat) : List α :=
  (clauses.drop (i * per)).take (min (i * per + per) clauses.length - i * per)

/-- Concrete oracles used by witnesses: an embedding capability that always
fails, an extractor that always completes with zero findings, a summarizer and
a synthesizer that always succeed. -/
def embedFailOracle : List (List Char) → Except Unit (List (List ℚ)) := fun _ => Except.error ()

def extractEmptyOracle : List Char → List Char → Except Unit (List Nat) := fun _ _ => Except.ok []

def sumOkOracle : Nat → List Char → List Nat → List Char → Except Unit (List Char) :=
  fun _ _ _ _ => Except.ok []

def synthOkOracle : List Nat → List Char → Except Unit (Option (List Char)) :=
  fun _ _ => Except.ok (some [])

/-- Concrete embedding oracles for the retrieval witnesses: one vector per
input, queries last. -/
def embedOkOracle1 : List (List Char) → Except Unit (List (List ℚ)) :=
  fun _ => Except.ok [[1], [1]]

def embedOkOracle3 : List (List Char) → Except Unit (List (List ℚ)) :=
  fun _ => Except.ok [[1], [3], [2], [1]]

/-- Concrete total oracles used by the chunk-summary witness. -/
def sumF : Nat → List Char → List Nat → List Char → List Char := fun _ _ _ _ => pyStr "sum"

def extF : List Char → List Char → List Nat := fun _ _ => [1, 2]

/-- All members of l have length at most B. -/
def chunksBounded (B : Nat) (l : List (List Char)) : Prop :=
  ∀ c ∈ l, c.length ≤ B

/-! ## Theorems

Helper lemmas first, then one theorem per claim (with witnesses and
counterexamples where required). -/

theorem dropWhile_length_le (p : Char → Bool) (l : List Char) :
    (l.dropWhile p).length ≤ l.length :=
  (List.dropWhile_suffix p).sublist.length_le

theorem pyStrip_length_le (l : List Char) : (pyStrip l).length ≤ l.length := by
  unfold pyStrip
  calc ((l.dropWhile isReWs).reverse.dropWhile isReWs).reverse.length
      = ((l.dropWhile isReWs).reverse.dropWhile isReWs).length := List.length_reverse _
    _ ≤ (l.dropWhile isReWs).reverse.length := dropWhile_length_le _ _
    _ = (l.dropWhile isReWs).length := List.length_reverse _
    _ ≤ l.length := dropWhile_length_le _ _

theorem pySliceLast_length (n : Nat) (l : List Char) (hn : 1 ≤ n) :
    (pySliceLast n l).length = l.length - (l.length - n) := by
  unfold pySliceLast
  rw [if_neg (by omega)]
  simp

theorem pySlice_length_le (a b : Nat) (l : List Char) :
    (pySlice a b l).length ≤ b - a := by
  unfold pySlice
  exact le_trans (List.length_take_le _ _) (le_refl _)

theorem lastIdxSat_zero (p : Nat → Bool) :
    lastIdxSat p 0 = if p 0 then 0 else -1 := rfl

theorem lastIdxSat_succ (p : Nat → Bool) (n : Nat) :
    lastIdxSat p (n + 1) = if p (n + 1) then ((n + 1 : Nat) : Int) else lastIdxSat p n := rfl

theorem lastIdxSat_ge_neg_one (p : Nat → Bool) (n : Nat) : -1 ≤ lastIdxSat p n := by
  induction n with
  | zero => rw [lastIdxSat_zero]; split <;> omega
  | succ k ih =>
    rw [lastIdxSat_succ]
    split
    · omega
    · exact ih

theorem lastIdxSat_ge (p : Nat → Bool) (n j : Nat) (hj : j ≤ n) (hp : p j = true) :
    (j : Int) ≤ lastIdxSat p n := by
  induction n with
  | zero =>
    have h0 : j = 0 := Nat.le_zero.mp hj
    subst h0
    rw [lastIdxSat_zero, if_pos hp]
    simp
  | succ k ih =>
    rw [lastIdxSat_succ]
    by_cases h : p (k + 1) = true
    · rw [if_pos h]; exact_mod_cast hj
    · rw [if_neg h]
      have hjk : j ≤ k := by
        rcases Nat.lt_or_ge j (k + 1) with h1 | h1
        · omega
        · exfalso; have h2 : j = k + 1 := by omega
          subst h2; exact h hp
      exact ih hjk

theorem lastIdxSat_spec (p : Nat → Bool) (n : Nat) :
    (lastIdxSat p n = -1 ∧ ∀ j ≤ n, p j = false) ∨
    (∃ k : Nat, lastIdxSat p n = (k : Int) ∧ k ≤ n ∧ p k = true ∧
      ∀ j ≤ n, k < j → p j = false) := by
  induction n with
  | zero =>
    by_cases h : p 0 = true
    · right
      refine ⟨0, ?_, le_refl _, h, fun j hj hcj => by omega⟩
      rw [lastIdxSat_zero, if_pos h]; rfl
    · left
      constructor
      · rw [lastIdxSat_zero, if_neg h]
      · intro j hj
        have h0 : j = 0 := Nat.le_zero.mp hj
        subst h0
        exact Bool.eq_false_iff.mpr h
  | succ k ih =>
    by_cases h : p (k + 1) = true
    · right
      refine ⟨k + 1, by rw [lastIdxSat_succ, if_pos h], le_refl _, h, ?_⟩
      intro j hj hcj; omega
    · have hstep : lastIdxSat p (k + 1) = lastIdxSat p k := by
        rw [lastIdxSat_succ, if_neg h]
      rcases ih with ⟨h1, h2⟩ | ⟨m, hm1, hm2, hm3, hm4⟩
      · left
        refine ⟨by rw [hstep]; exact h1, ?_⟩
        intro j hj
        rcases Nat.lt_or_ge j (k + 1) with hlt | hge
        · exact h2 j (by omega)
        · have : j = k + 1 := by omega
          subst this; exact Bool.eq_false_iff.mpr h
      · right
        refine ⟨m, by rw [hstep]; exact hm1, by omega, hm3, ?_⟩
        intro j hj hmj
        rcases Nat.lt_or_ge j (k + 1) with hlt | hge
        · exact hm4 j (by omega) hmj
        · have : j = k + 1 := by omega
          subst this; exact Bool.eq_false_iff.mpr h


theorem mapM_ok_of_forall {γ β ε : Type} (F : γ → Except ε β) (G : γ → β) :
    ∀ l : List γ, (∀ x ∈ l, F x = Except.ok (G x)) → l.mapM F = Except.ok (l.map G)
  | [], _ => rfl
  | x :: xs, h => by
    have hx : F x = Except.ok (G x) := h x (List.mem_cons_self x xs)
    have hxs := mapM_ok_of_forall F G xs (fun y hy => h y (List.mem_cons_of_mem x hy))
    rw [List.mapM_cons]
    rw [hx, hxs]
    rfl

theorem flatten_map_nil {α γ : Type} (l : List γ) :
    (l.map fun _ => ([] : List α)).flatten = [] := by
  induction l with
  | nil => rfl
  | cons x xs ih => simp [ih]

theorem flatten_replicate_nil {α : Type} (n : Nat) :
    (List.replicate n ([] : List α)).flatten = [] := by
  induction n with
  | zero => rfl
  | succ k ih => simp [List.replicate_succ, ih]

/-- Claim C5: for every text whose length is at most chunkSize,
chunk_text(text, chunkSize, overlap) returns exactly one chunk equal to the
input text; the branch short-circuits before section parsing or assembly. -/
theorem claim_C5_theorem (text : List Char) (cs ov : Nat) (h : text.length ≤ cs) :
    chunk_text text cs ov = [text] := by
  unfold chunk_text
  rw [if_pos h]

theorem claim_C5_witness :
    (pyStr "short contract text").length ≤ 4000 ∧
    chunk_text (pyStr "short contract text") 4000 300 = [pyStr "short contract text"] :=
  ⟨by decide, claim_C5_theorem (pyStr "short contract text") 4000 300 (by decide)⟩

/-- Claim C9: simulate_impact with an empty or whitespace-only scenario
returns the fixed guidance string and performs no chunking, no embedding call
and no generation call (the effect trace is empty), for every document text
and every behaviour of the external capabilities. -/
theorem claim_C9_theorem (sqrtF : ℚ → ℚ)
    (embedO : List (List Char) → Except Unit (List (List ℚ)))
    (genO : List Char → List Char → List Char)
    (documentText scenario : List Char) (h : pyStrip scenario = []) :
    simulate_impact sqrtF embedO genO documentText scenario = (emptyScenarioMsg, []) := by
  unfold simulate_impact
  rw [h]
  rfl

theorem claim_C9_witness :
    pyStrip (pyStr "  \t ") = [] ∧
    simulate_impact (fun q => q) (fun _ => Except.error ()) (fun _ _ => [])
      (pyStr "any document") (pyStr "  \t ") = (emptyScenarioMsg, []) :=
  ⟨by decide, claim_C9_theorem (fun q => q) (fun _ => Except.error ()) (fun _ _ => [])
    (pyStr "any document") (pyStr "  \t ") (by decide)⟩

/-- Claim C6: if the embedding capability fails, or returns a vector count
different from the number of inputs, retrieval returns the full chunk list
unranked and unchanged; since the function is total with a plain list result,
no error propagates to the caller. -/
theorem claim_C6_theorem (sqrtF : ℚ → ℚ)
    (embedO : List (List Char) → Except Unit (List (List ℚ)))
    (chunks : List (List Char)) (query : List Char) (topK : Nat)
    (h : embedO (chunks ++ [query]) = Except.error () ∨
      ∃ vs, embedO (chunks ++ [query]) = Except.ok vs ∧ vs.length ≠ chunks.length + 1) :
    vectorRetrieveRelevantChunks sqrtF embedO chunks query topK = chunks := by
  unfold vectorRetrieveRelevantChunks
  rcases h with h | ⟨vs, h1, h2⟩
  · rw [h]
  · rw [h1]
    simp only [if_pos h2]

theorem claim_C6_witness :
    (embedFailOracle ([pyStr "a", pyStr "b"] ++ [pyStr "q"]) = Except.error () ∨
      ∃ vs, embedFailOracle ([pyStr "a", pyStr "b"] ++ [pyStr "q"]) = Except.ok vs ∧
        vs.length ≠ [pyStr "a", pyStr "b"].length + 1) ∧
    vectorRetrieveRelevantChunks (fun q => q) embedFailOracle
      [pyStr "a", pyStr "b"] (pyStr "q") 6 = [pyStr "a", pyStr "b"] :=
  ⟨Or.inl rfl,
   claim_C6_theorem (fun q => q) embedFailOracle
     [pyStr "a", pyStr "b"] (pyStr "q") 6 (Or.inl rfl)⟩

/-- Claim C4: when every chunk extraction call completes and contributes zero
findings, analyze_contract fails with the terminal empty-result error bearing
the too-short-or-unsupported message, and that error is distinct from the
transport-failure condition. -/
theorem claim_C4_theorem {α : Type}
    (extractO : List Char → List Char → Except Unit (List α))
    (sumO : Nat → List Char → List α → List Char → Except Unit (List Char))
    (synthO : List α → List Char → Except Unit (Option (List Char)))
    (documentText role : List Char)
    (h : ∀ c, extractO c role = Except.ok ([] : List α)) :
    analyze_contract extractO sumO synthO documentText role =
      Except.error (PipelineError.emptyResult emptyResultMsg) ∧
    PipelineError.emptyResult emptyResultMsg ≠ PipelineError.transport := by
  constructor
  · have hm : (chunk_text (convert_pdf_to_markdown documentText) 4000 300).mapM
        (fun c => extractO c role) =
        Except.ok ((chunk_text (convert_pdf_to_markdown documentText) 4000 300).map
          (fun _ => ([] : List α))) :=
      mapM_ok_of_forall _ _ _ (fun c _ => h c)
    unfold analyze_contract
    simp only [hm, flatten_map_nil]
    simp
  · intro hcontra
    exact PipelineError.noConfusion hcontra

theorem claim_C4_witness :
    (∀ c, extractEmptyOracle c (pyStr "tenant") = Except.ok ([] : List Nat)) ∧
    analyze_contract extractEmptyOracle sumOkOracle synthOkOracle
      (pyStr "a lease document") (pyStr "tenant") =
        Except.error (PipelineError.emptyResult emptyResultMsg) :=
  ⟨fun _ => rfl,
   (claim_C4_theorem extractEmptyOracle sumOkOracle synthOkOracle
     (pyStr "a lease document") (pyStr "tenant") (fun _ => rfl)).1⟩

theorem chooseEnd_ge (s : List Char) (cs ov start : Nat) :
    start + (cs - ov) ≤ chooseEnd s cs ov start := by
  unfold chooseEnd
  by_cases h : start + cs < s.length
  · rw [if_pos h]
    dsimp only
    split
    · omega
    · omega
  · rw [if_neg h]
    omega

theorem splitGo_isSome (s : List Char) (cs ov : Nat) (hcs : 2 * ov < cs) :
    ∀ fuel start, s.length - start < fuel → (splitGo s cs ov fuel start).isSome = true := by
  intro fuel
  induction fuel with
  | zero => intro start h; omega
  | succ f ih =>
    intro start h
    unfold splitGo
    by_cases hs : start < s.length
    · rw [if_pos hs]
      have hge := chooseEnd_ge s cs ov start
      have hnext : start + 1 ≤ chooseEnd s cs ov start - ov := by omega
      have hrec := ih (chooseEnd s cs ov start - ov) (by omega)
      cases hgo : splitGo s cs ov f (chooseEnd s cs ov start - ov) with
      | none => rw [hgo] at hrec; simp at hrec
      | some rest => simp [hgo]
    · rw [if_neg hs]
      rfl

/-- Claim C10: the oversize-splitting loop terminates whenever
chunkSize > 2*overlap (as in both pipeline configurations, 4000/300 and
1500/200): the next stride start, chooseEnd - overlap, advances by at least
chunkSize - 2*overlap per iteration, and the fueled loop interpreter already
succeeds with fuel length + 1. -/
theorem claim_C10_theorem (s : List Char) (cs ov start : Nat)
    (hcs : 2 * ov < cs) (hs : start < s.length) :
    start + (cs - 2 * ov) ≤ chooseEnd s cs ov start - ov ∧
    (splitGo s cs ov (s.length + 1) 0).isSome = true := by
  constructor
  · have := chooseEnd_ge s cs ov start
    omega
  · exact splitGo_isSome s cs ov hcs (s.length + 1) 0 (by omega)

theorem claim_C10_witness :
    2 * 300 < 4000 ∧ 0 < (pyStr "hello legal world").length ∧
    (0 + (4000 - 2 * 300) ≤ chooseEnd (pyStr "hello legal world") 4000 300 0 - 300 ∧
      (splitGo (pyStr "hello legal world") 4000 300 ((pyStr "hello legal world").length + 1) 0).isSome = true) :=
  ⟨by decide, by decide,
   claim_C10_theorem (pyStr "hello legal world") 4000 300 0 (by decide) (by decide)⟩

theorem lastIdxSat_le (p : Nat → Bool) (n : Nat) : lastIdxSat p n ≤ (n : Int) := by
  induction n with
  | zero => rw [lastIdxSat_zero]; split <;> omega
  | succ k ih =>
    rw [lastIdxSat_succ]
    split
    · omega
    · omega

theorem lastIdxSat_or (p q : Nat → Bool) (n : Nat) :
    lastIdxSat (fun j => p j || q j) n = max (lastIdxSat p n) (lastIdxSat q n) := by
  induction n with
  | zero =>
    rw [lastIdxSat_zero, lastIdxSat_zero, lastIdxSat_zero]
    cases hp : p 0 <;> cases hq : q 0 <;> simp [hp, hq]
  | succ k ih =>
    rw [lastIdxSat_succ, lastIdxSat_succ, lastIdxSat_succ]
    cases hp : p (k + 1)
    · cases hq : q (k + 1)
      · simp only [Bool.or_self, if_neg (by simp [hp, hq] : ¬(p (k + 1) || q (k + 1)) = true)]
        simp [hp, hq, ih]
      · have h1 := lastIdxSat_le p k
        simp [hp, hq]
        omega
    · cases hq : q (k + 1)
      · have h2 := lastIdxSat_le q k
        simp [hp, hq]
        omega
      · simp [hp, hq]

/-- Claim C2 (amended): at each stride boundary the cut offset chosen by the
code equals the greatest position in the look-back/look-forward window at
which any of the four break strings (paragraph break, line break, sentence
end, comma) occurs, with a hard cut at exactly chunkSize only when no break
string occurs in the window at all; the kinds carry no precedence, only
position does. -/
theorem claim_C2_amended (s : List Char) (cs ov start : Nat) :
    chooseEnd s cs ov start = specChooseEnd s cs ov start := by
  unfold chooseEnd specChooseEnd
  by_cases h : start + cs < s.length
  · rw [if_pos h, if_pos h]
    dsimp only
    have hbreak : (fun j => breakAt (pySlice (start + cs - ov) (start + cs + ov) s) j) =
        fun j =>
          patAt nlnl ((pySlice (start + cs - ov) (start + cs + ov) s).drop j) ||
          (patAt nl1 ((pySlice (start + cs - ov) (start + cs + ov) s).drop j) ||
           (patAt dotSp ((pySlice (start + cs - ov) (start + cs + ov) s).drop j) ||
            patAt commaSp ((pySlice (start + cs - ov) (start + cs + ov) s).drop j))) := by
      funext j
      simp [breakAt, Bool.or_assoc]
    rw [hbreak, lastIdxSat_or, lastIdxSat_or, lastIdxSat_or]
    have e1 := lastIdxSat_ge_neg_one
      (fun j => patAt nlnl ((pySlice (start + cs - ov) (start + cs + ov) s).drop j))
      (pySlice (start + cs - ov) (start + cs + ov) s).length
    show (if List.foldl max (-1) [pyRfind _ nlnl, pyRfind _ nl1, pyRfind _ dotSp, pyRfind _ commaSp] ≠ -1
        then _ else _) = _
    unfold pyRfind
    rw [List.foldl_cons, List.foldl_cons, List.foldl_cons, List.foldl_cons, List.foldl_nil]
    rw [max_eq_right e1]
    rw [max_assoc, max_assoc]
  · rw [if_neg h, if_neg h]

/-- Claim C2 counterexample: in the window of this concrete section a
paragraph break occurs at offset 0 and a comma at offset 4; the claimed
preference order would cut at the paragraph break (end 6), but the code cuts
at the comma (end 10), and the emitted fragments follow the comma cut. -/
theorem claim_C2_counterexample :
    chooseEnd (pyStr "abcdef\n\nhi, klmnopqrst") 10 4 0 = 10 ∧
    specPrefChooseEnd (pyStr "abcdef\n\nhi, klmnopqrst") 10 4 0 = 6 ∧
    (10 : Nat) ≠ 6 ∧
    splitLargeSection (pyStr "abcdef\n\nhi, klmnopqrst") 10 4 =
      [pyStr "abcdef\n\nhi", pyStr "hi, klmn", pyStr "klmnopqrst", pyStr "qrst"] := by
  decide

theorem patAt_nonempty_nil (g : List Char) (hg : g ≠ []) : patAt g [] = false := by
  cases g with
  | nil => exact absurd rfl hg
  | cons x xs => rfl

theorem patAt_true_lt (g t : List Char) (j : Nat) (hg : g ≠ [])
    (h : patAt g (t.drop j) = true) : j < t.length := by
  by_contra hc
  rw [List.drop_eq_nil_of_le (by omega)] at h
  rw [patAt_nonempty_nil g hg] at h
  exact Bool.false_ne_true h

theorem patAt_of_take : ∀ (p l : List Char), l.take p.length = p → patAt p l = true
  | [], _, _ => rfl
  | x :: xs, [], h => by simp at h
  | x :: xs, c :: cs, h => by
    rw [List.length_cons, List.take_succ_cons] at h
    have hx : c = x := (List.cons_eq_cons.mp h).1
    have hxs : cs.take xs.length = xs := (List.cons_eq_cons.mp h).2
    subst hx
    show (decide (c = c) && patAt xs cs) = true
    rw [patAt_of_take xs cs hxs]
    simp

theorem tryMatch_sound (l g : List Char) (h : tryMatch l = some g) :
    patAt g l = true ∧ g ≠ [] := by
  match l with
  | [] => exact absurd h (by simp [tryMatch])
  | c :: rest =>
    unfold tryMatch at h
    dsimp only at h
    by_cases hc : isPunct3 c
    · rw [if_pos hc] at h
      by_cases hws : (rest.takeWhile isReWs).isEmpty
      · rw [if_pos hws] at h; exact absurd h (by simp)
      · rw [if_neg hws] at h
        cases hdrop : rest.drop (rest.takeWhile isReWs).length with
        | nil => rw [hdrop] at h; exact absurd h (by simp)
        | cons u tail =>
          rw [hdrop] at h
          dsimp only at h
          by_cases hu : u.isUpper
          · rw [if_pos hu] at h
            have hg : g = c :: rest.takeWhile isReWs ++ [u] := (Option.some_inj.mp h).symm
            subst hg
            refine ⟨?_, by simp⟩
            show (decide (c = c) && patAt (rest.takeWhile isReWs ++ [u]) rest) = true
            have h1 : rest.take (rest.takeWhile isReWs).length = rest.takeWhile isReWs :=
              (List.prefix_iff_eq_take.mp ( List.takeWhile_prefix isReWs)).symm
            have h2 := List.take_append_drop (rest.takeWhile isReWs).length rest
            rw [h1, hdrop] at h2
            have htake0 : (rest.takeWhile isReWs ++ u :: tail).take
                (rest.takeWhile isReWs ++ [u]).length = rest.takeWhile isReWs ++ [u] := by
              rw [show (rest.takeWhile isReWs ++ [u]).length =
                (rest.takeWhile isReWs).length + 1 by simp]
              rw [List.take_append]
              rfl
            rw [h2] at htake0
            rw [patAt_of_take _ _ htake0]
            simp
          · rw [if_neg hu] at h; exact absurd h (by simp)
    · rw [if_neg hc] at h; exact absurd h (by simp)

theorem reSearch_eq_none_of (l : List Char) (h : ∀ i, tryMatch (l.drop i) = none) :
    reSearch l = none := by
  induction l with
  | nil => rfl
  | cons c r ih =>
    unfold reSearch
    rw [show tryMatch (c :: r) = none from h 0]
    exact ih fun i => h (i + 1)

theorem reSearch_eq_some_of_first (l : List Char) (i : Nat) (g : List Char)
    (hi : tryMatch (l.drop i) = some g) (hfirst : ∀ j < i, tryMatch (l.drop j) = none) :
    reSearch l = some g := by
  induction l generalizing i with
  | nil => rw [List.drop_nil] at hi; exact absurd hi (by simp [tryMatch])
  | cons c r ih =>
    cases i with
    | zero =>
      unfold reSearch
      rw [show tryMatch (c :: r) = some g from hi]
    | succ n =>
      unfold reSearch
      rw [show tryMatch (c :: r) = none from hfirst 0 (Nat.succ_pos n)]
      exact ih n hi fun j hj => hfirst (j + 1) (by omega)

theorem reSearch_some_exists (l g : List Char) (h : reSearch l = some g) :
    ∃ i, tryMatch (l.drop i) = some g := by
  induction l with
  | nil => exact absurd h (by simp [reSearch])
  | cons c r ih =>
    unfold reSearch at h
    cases htm : tryMatch (c :: r) with
    | some g2 =>
      rw [htm] at h
      refine ⟨0, ?_⟩
      show tryMatch (c :: r) = some g
      rw [htm]
      exact h
    | none =>
      rw [htm] at h
      obtain ⟨i, hi⟩ := ih h
      exact ⟨i + 1, hi⟩

/-- Claim C3 counterexample: for the chunk "q. Ab. Ab" with overlap 6 the
boundary ". A" occurs twice in the window; the claim says the tail after the
first boundary is returned ("Ab. Ab"), but the code looks up the last
occurrence of the matched string in the whole chunk via rfind and returns
"Ab". -/
theorem claim_C3_counterexample :
    getOverlapText (pyStr "q. Ab. Ab") 6 = pyStr "Ab" ∧
    specC3OverlapTail (pyStr "q. Ab. Ab") 6 = pyStr "Ab. Ab" ∧
    pyStr "Ab" ≠ pyStr "Ab. Ab" := by decide

/-- Claim C3 (amended): on a chunk longer than the overlap, only the window
of the last floor(1.5*overlap) characters is searched; the boundary pattern
is a dot, exclamation or question mark followed by whitespace and a capital
letter; when the window contains no such boundary the last overlap characters
are returned verbatim, and when it does, with g the substring matched at the
first boundary of the window, the code returns the stripped tail of the chunk
starting just after the punctuation character of the last occurrence of g in
the whole chunk. -/
theorem claim_C3_amended (t : List Char) (ov : Nat) (hov : 1 ≤ ov) (hlen : ov < t.length) :
    ((∀ i, tryMatch ((pySliceLast (3 * ov / 2) t).drop i) = none) →
      getOverlapText t ov = pySliceLast ov t) ∧
    (∀ i g, tryMatch ((pySliceLast (3 * ov / 2) t).drop i) = some g →
      (∀ j < i, tryMatch ((pySliceLast (3 * ov / 2) t).drop j) = none) →
      ∃ p : Nat, patAt g (t.drop p) = true ∧
        (∀ q, p < q → patAt g (t.drop q) = false) ∧
        getOverlapText t ov = pyStrip (t.drop (p + 1))) := by
  have hw1 : 1 ≤ 3 * ov / 2 := by omega
  have harea : pySliceLast (3 * ov / 2) t = t.drop (t.length - 3 * ov / 2) := by
    unfold pySliceLast
    rw [if_neg (by omega)]
  constructor
  · intro h
    unfold getOverlapText
    rw [if_neg (by omega)]
    dsimp only
    rw [reSearch_eq_none_of _ h]
  · intro i g hi hfirst
    have hsearch : reSearch (pySliceLast (3 * ov / 2) t) = some g :=
      reSearch_eq_some_of_first _ i g hi hfirst
    obtain ⟨hpat, hgne⟩ := tryMatch_sound _ _ hi
    have hocc : patAt g (t.drop (t.length - 3 * ov / 2 + i)) = true := by
      rw [harea, List.drop_drop] at hpat
      exact hpat
    have hlt : t.length - 3 * ov / 2 + i < t.length := patAt_true_lt g t _ hgne hocc
    rcases lastIdxSat_spec (fun j => patAt g (t.drop j)) t.length with ⟨hneg, hall⟩ |
      ⟨k, hk1, hk2, hk3, hk4⟩
    · exact absurd hocc (by rw [hall (t.length - 3 * ov / 2 + i) (by omega)]; simp)
    · refine ⟨k, hk3, ?_, ?_⟩
      · intro q hq
        by_cases hql : q ≤ t.length
        · exact hk4 q hql hq
        · rw [List.drop_eq_nil_of_le (by omega)]
          exact patAt_nonempty_nil g hgne
      · unfold getOverlapText
        rw [if_neg (by omega)]
        dsimp only
        rw [hsearch]
        dsimp only
        have hrf : pyRfind t g = (k : Int) := hk1
        rw [hrf]
        rw [show ((k : Int) + 1).toNat = k + 1 by omega]

theorem claim_C3_witness :
    1 ≤ 6 ∧ 6 < (pyStr "q. Ab. Ab").length ∧
    (((∀ i, tryMatch ((pySliceLast (3 * 6 / 2) (pyStr "q. Ab. Ab")).drop i) = none) →
      getOverlapText (pyStr "q. Ab. Ab") 6 = pySliceLast 6 (pyStr "q. Ab. Ab")) ∧
    (∀ i g, tryMatch ((pySliceLast (3 * 6 / 2) (pyStr "q. Ab. Ab")).drop i) = some g →
      (∀ j < i, tryMatch ((pySliceLast (3 * 6 / 2) (pyStr "q. Ab. Ab")).drop j) = none) →
      ∃ p : Nat, patAt g ((pyStr "q. Ab. Ab").drop p) = true ∧
        (∀ q, p < q → patAt g ((pyStr "q. Ab. Ab").drop q) = false) ∧
        getOverlapText (pyStr "q. Ab. Ab") 6 = pyStrip ((pyStr "q. Ab. Ab").drop (p + 1)))) :=
  ⟨by decide, by decide, claim_C3_amended (pyStr "q. Ab. Ab") 6 (by decide) (by decide)⟩

theorem mem_insLex (z x : Nat × ℚ) : ∀ l : List (Nat × ℚ), z ∈ insLex x l ↔ z = x ∨ z ∈ l
  | [] => by simp [insLex]
  | y :: ys => by
    unfold insLex
    split
    · simp
    · rw [List.mem_cons, mem_insLex z x ys]
      simp [or_comm, or_assoc, or_left_comm]

theorem mem_sortLex (z : Nat × ℚ) : ∀ l : List (Nat × ℚ), z ∈ sortLex l ↔ z ∈ l
  | [] => Iff.rfl
  | x :: xs => by
    show z ∈ insLex x (sortLex xs) ↔ _
    rw [mem_insLex z x (sortLex xs), mem_sortLex z xs]
    simp

theorem insDesc_eq_insLex (x : Nat × ℚ) :
    ∀ l : List (Nat × ℚ), (∀ y ∈ l, x.1 < y.1) → insDesc x l = insLex x l
  | [], _ => rfl
  | y :: ys, h => by
    have hxy : x.1 < y.1 := h y (List.mem_cons_self y ys)
    unfold insDesc insLex
    by_cases hc : y.2 ≤ x.2
    · have hcond : y.2 < x.2 ∨ (x.2 = y.2 ∧ x.1 ≤ y.1) := by
        rcases lt_or_eq_of_le hc with hlt | heq
        · exact Or.inl hlt
        · exact Or.inr ⟨heq.symm, le_of_lt hxy⟩
      rw [if_pos hc, if_pos hcond]
    · have hcond : ¬(y.2 < x.2 ∨ (x.2 = y.2 ∧ x.1 ≤ y.1)) := by
        push_neg at hc
        rintro (hlt | ⟨heq, _⟩)
        · exact absurd hlt (not_lt_of_gt hc)
        · exact absurd heq (ne_of_lt hc)
      rw [if_neg hc, if_neg hcond]
      rw [insDesc_eq_insLex x ys fun y hy => h y (List.mem_cons_of_mem _ hy)]

theorem pairwise_fst_lt_enumFrom {β : Type} :
    ∀ (l : List β) (n : Nat),
      List.Pairwise (fun a b : Nat × β => a.1 < b.1) (List.enumFrom n l)
  | [], _ => List.Pairwise.nil
  | x :: xs, n => by
    rw [List.enumFrom_cons]
    refine List.Pairwise.cons ?_ (pairwise_fst_lt_enumFrom xs (n + 1))
    rintro ⟨i, b⟩ hy
    have h1 := (List.mem_enumFrom hy).1
    simp only []
    omega

theorem pySortDesc_eq_sortLex :
    ∀ l : List (Nat × ℚ), List.Pairwise (fun a b : Nat × ℚ => a.1 < b.1) l →
      pySortDesc l = sortLex l
  | [], _ => rfl
  | x :: xs, h => by
    rw [List.pairwise_cons] at h
    show insDesc x (pySortDesc xs) = insLex x (sortLex xs)
    rw [pySortDesc_eq_sortLex xs h.2]
    exact insDesc_eq_insLex x (sortLex xs)
      fun y hy => h.1 y ((mem_sortLex y xs).mp hy)

/-- Claim C7 (amended): when embedding succeeds with a matching vector count,
retrieval returns the chunk texts sorted by descending cosine similarity to
the query vector, ties broken by ascending original index, truncated to the
top min(topK, numChunks) — except that when this truncation is empty (topK = 0
with a non-empty chunk list) the code falls back to returning the full
unranked chunk list. -/
theorem claim_C7_amended (sqrtF : ℚ → ℚ)
    (embedO : List (List Char) → Except Unit (List (List ℚ)))
    (chunks : List (List Char)) (query : List Char) (topK : Nat) (vs : List (List ℚ))
    (h1 : embedO (chunks ++ [query]) = Except.ok vs)
    (h2 : vs.length = chunks.length + 1) :
    vectorRetrieveRelevantChunks sqrtF embedO chunks query topK =
      if (specRankedRetrieve sqrtF chunks vs topK).isEmpty then chunks
      else specRankedRetrieve sqrtF chunks vs topK := by
  unfold vectorRetrieveRelevantChunks specRankedRetrieve
  rw [h1]
  dsimp only
  rw [if_neg (by omega : ¬vs.length ≠ chunks.length + 1)]
  rw [pySortDesc_eq_sortLex _ ?_]
  rw [List.pairwise_map]
  have hp : List.Pairwise (fun a b : Nat × List ℚ => a.1 < b.1) vs.dropLast.enum :=
    pairwise_fst_lt_enumFrom vs.dropLast 0
  exact hp.imp fun {a b} hab => hab

/-- Claim C7 counterexample: with one chunk and topK = 0 the specified
truncation to min(topK, numChunks) = 0 chunks is empty, but the code returns
the full unranked chunk list instead. -/
theorem claim_C7_counterexample :
    vectorRetrieveRelevantChunks (fun q => q) embedOkOracle1 [pyStr "a"] (pyStr "q") 0 =
      [pyStr "a"] ∧
    specRankedRetrieve (fun q => q) [pyStr "a"] [[1], [1]] 0 = [] ∧
    ([pyStr "a"] : List (List Char)) ≠ [] := by decide

theorem claim_C7_witness :
    embedOkOracle3 ([pyStr "a", pyStr "b", pyStr "c"] ++ [pyStr "q"]) =
      Except.ok [[1], [3], [2], [1]] ∧
    ([[1], [3], [2], [1]] : List (List ℚ)).length = [pyStr "a", pyStr "b", pyStr "c"].length + 1 ∧
    vectorRetrieveRelevantChunks (fun q => q) embedOkOracle3
        [pyStr "a", pyStr "b", pyStr "c"] (pyStr "q") 6 =
      (if (specRankedRetrieve (fun q => q) [pyStr "a", pyStr "b", pyStr "c"]
            [[1], [3], [2], [1]] 6).isEmpty
       then [pyStr "a", pyStr "b", pyStr "c"]
       else specRankedRetrieve (fun q => q) [pyStr "a", pyStr "b", pyStr "c"]
            [[1], [3], [2], [1]] 6) :=
  ⟨rfl, by decide,
   claim_C7_amended (fun q => q) embedOkOracle3 [pyStr "a", pyStr "b", pyStr "c"]
     (pyStr "q") 6 [[1], [3], [2], [1]] rfl (by decide)⟩

theorem createChunkSummaries_ok {α : Type}
    (f : Nat → List Char → List α → List Char → List Char)
    (chunks : List (List Char)) (clauses : List α) (role : List Char) :
    createChunkSummaries (fun i c s r => Except.ok (f i c s r)) chunks clauses role =
      Except.ok ((chunks.enum).map fun p =>
        (p.1 + 1, pyStrip (f p.1 p.2
          (clauseSlice clauses
            (if chunks.isEmpty then clauses.length else ceilDiv clauses.length chunks.length)
            p.1) role))) := by
  unfold createChunkSummaries
  dsimp only
  exact mapM_ok_of_forall _ _ _ fun x _ => rfl

/-- Claim C8: chunk summarization produces exactly one summary per input
chunk, with 1-based indices 1..numChunks, each summarized against the even
slice clauses[i*perChunk : min((i+1)*perChunk, total)) where
perChunk = ceil(total / numChunks); consequently the final report of
analyze_contract carries exactly one chunkSummaries entry per chunk. -/
theorem claim_C8_theorem {α : Type}
    (f : Nat → List Char → List α → List Char → List Char)
    (g : List Char → List Char → List α) (pay : List Char)
    (chunks : List (List Char)) (clauses : List α) (role documentText : List Char)
    (hne : ((chunk_text (convert_pdf_to_markdown documentText) 4000 300).map
      (fun c => g c role)).flatten ≠ []) :
    (∃ ss, createChunkSummaries (fun i c s r => Except.ok (f i c s r)) chunks clauses role
        = Except.ok ss ∧
      ss.length = chunks.length ∧
      ss.map Prod.fst = List.range' 1 chunks.length ∧
      ∀ k, ss.get? k = (chunks.get? k).map fun c =>
        (k + 1, pyStrip (f k c
          (clauseSlice clauses
            (if chunks.isEmpty then clauses.length else ceilDiv clauses.length chunks.length)
            k) role))) ∧
    (∃ rep, analyze_contract (fun c r => Except.ok (g c r))
        (fun i c s r => Except.ok (f i c s r)) (fun _ _ => Except.ok (some pay))
        documentText role = Except.ok rep ∧
      rep.chunkSummaries.length =
        (chunk_text (convert_pdf_to_markdown documentText) 4000 300).length) := by
  constructor
  · refine ⟨_, createChunkSummaries_ok f chunks clauses role, ?_, ?_, ?_⟩
    · rw [List.length_map, List.enum_length]
    · rw [List.map_map]
      have hcomp : (Prod.fst ∘ fun p : Nat × List Char =>
          (p.1 + 1, pyStrip (f p.1 p.2
            (clauseSlice clauses
              (if chunks.isEmpty then clauses.length else ceilDiv clauses.length chunks.length)
              p.1) role))) = (fun x => x + 1) ∘ Prod.fst := rfl
      rw [hcomp, ← List.map_map, List.enum_map_fst, List.range'_eq_map_range]
      simp [Nat.add_comm]
    · intro k
      rw [List.get?_map, List.get?_enum]
      cases h : chunks.get? k <;> simp
  · have hm : (chunk_text (convert_pdf_to_markdown documentText) 4000 300).mapM
        (fun c => (Except.ok (g c role) : Except Unit (List α))) =
        Except.ok ((chunk_text (convert_pdf_to_markdown documentText) 4000 300).map
          (fun c => g c role)) :=
      mapM_ok_of_forall _ _ _ fun c _ => rfl
    unfold analyze_contract
    simp only [hm]
    rw [if_neg (by simpa using hne)]
    rw [createChunkSummaries_ok]
    refine ⟨_, rfl, ?_⟩
    simp [List.enum_length]

theorem claim_C8_witness :
    ((chunk_text (convert_pdf_to_markdown (pyStr "doc")) 4000 300).map
      (fun c => extF c (pyStr "r"))).flatten ≠ [] ∧
    ((∃ ss, createChunkSummaries (fun i c s r => Except.ok (sumF i c s r))
        [pyStr "x", pyStr "y"] [1, 2, 3] (pyStr "r") = Except.ok ss ∧
      ss.length = [pyStr "x", pyStr "y"].length ∧
      ss.map Prod.fst = List.range' 1 [pyStr "x", pyStr "y"].length ∧
      ∀ k, ss.get? k = ([pyStr "x", pyStr "y"].get? k).map fun c =>
        (k + 1, pyStrip (sumF k c
          (clauseSlice [1, 2, 3]
            (if ([pyStr "x", pyStr "y"] : List (List Char)).isEmpty then ([1, 2, 3] : List Nat).length
              else ceilDiv ([1, 2, 3] : List Nat).length [pyStr "x", pyStr "y"].length)
            k) (pyStr "r")))) ∧
    (∃ rep, analyze_contract (fun c r => Except.ok (extF c r))
        (fun i c s r => Except.ok (sumF i c s r)) (fun _ _ => Except.ok (some (pyStr "rep")))
        (pyStr "doc") (pyStr "r") = Except.ok rep ∧
      rep.chunkSummaries.length =
        (chunk_text (convert_pdf_to_markdown (pyStr "doc")) 4000 300).length)) :=
  ⟨by decide,
   claim_C8_theorem sumF extF (pyStr "rep") [pyStr "x", pyStr "y"] [1, 2, 3]
     (pyStr "r") (pyStr "doc") (by decide)⟩

theorem getOverlapText_length_le (t : List Char) (ov : Nat) (hov : 1 ≤ ov) :
    (getOverlapText t ov).length ≤ 3 * ov / 2 := by
  unfold getOverlapText
  by_cases h1 : t.length ≤ ov
  · rw [if_pos h1]
    omega
  · rw [if_neg h1]
    dsimp only
    cases hre : reSearch (pySliceLast (3 * ov / 2) t) with
    | none =>
      dsimp only
      unfold pySliceLast
      rw [if_neg (by omega)]
      rw [List.length_drop]
      omega
    | some g =>
      dsimp only
      obtain ⟨i, hi⟩ := reSearch_some_exists _ _ hre
      obtain ⟨hpat, hgne⟩ := tryMatch_sound _ _ hi
      have harea : pySliceLast (3 * ov / 2) t = t.drop (t.length - 3 * ov / 2) := by
        unfold pySliceLast
        rw [if_neg (by omega)]
      have hocc : patAt g (t.drop (t.length - 3 * ov / 2 + i)) = true := by
        rw [harea, List.drop_drop] at hpat
        exact hpat
      have hlt := patAt_true_lt g t _ hgne hocc
      have hge : ((t.length - 3 * ov / 2 + i : Nat) : Int) ≤ pyRfind t g :=
        lastIdxSat_ge _ _ _ (by omega) hocc
      calc (pyStrip (t.drop ((pyRfind t g + 1).toNat))).length
          ≤ (t.drop ((pyRfind t g + 1).toNat)).length := pyStrip_length_le _
        _ = t.length - (pyRfind t g + 1).toNat := by rw [List.length_drop]
        _ ≤ 3 * ov / 2 := by omega

theorem foldl_max_le (M : Int) : ∀ (l : List Int) (x : Int), x ≤ M → (∀ y ∈ l, y ≤ M) →
    l.foldl max x ≤ M
  | [], x, hx, _ => hx
  | y :: ys, x, hx, h => by
    rw [List.foldl_cons]
    exact foldl_max_le M ys (max x y)
      (max_le hx (h y (List.mem_cons_self y ys)))
      fun z hz => h z (List.mem_cons_of_mem y hz)

theorem pyRfind_le (hay pat : List Char) (hpat : pat ≠ []) :
    pyRfind hay pat ≤ (hay.length : Int) - 1 := by
  rcases lastIdxSat_spec (fun j => patAt pat (hay.drop j)) hay.length with ⟨h1, _⟩ |
    ⟨k, hk1, _, hk3, _⟩
  · show lastIdxSat _ _ ≤ _
    rw [h1]
    omega
  · show lastIdxSat _ _ ≤ _
    rw [hk1]
    have := patAt_true_lt pat hay k hpat hk3
    omega

theorem chooseEnd_le (s : List Char) (cs ov start : Nat) (hov : ov ≤ cs) :
    chooseEnd s cs ov start ≤ start + cs + ov := by
  unfold chooseEnd
  by_cases h : start + cs < s.length
  · rw [if_pos h]
    dsimp only
    set area := pySlice (start + cs - ov) (start + cs + ov) s with harea
    have hlen : area.length ≤ 2 * ov := by
      rw [harea]
      have := pySlice_length_le (start + cs - ov) (start + cs + ov) s
      omega
    by_cases hb : List.foldl max (-1)
        [pyRfind area nlnl, pyRfind area nl1, pyRfind area dotSp, pyRfind area commaSp] ≠ -1
    · rw [if_pos hb]
      have hM : List.foldl max (-1)
          [pyRfind area nlnl, pyRfind area nl1, pyRfind area dotSp, pyRfind area commaSp] ≤
          (area.length : Int) - 1 := by
        refine foldl_max_le _ _ _ (by omega) ?_
        intro y hy
        simp only [List.mem_cons, List.not_mem_nil, or_false] at hy
        rcases hy with rfl | rfl | rfl | rfl
        · exact pyRfind_le area nlnl (by simp [nlnl])
        · exact pyRfind_le area nl1 (by simp [nl1])
        · exact pyRfind_le area dotSp (by simp [dotSp])
        · exact pyRfind_le area commaSp (by simp [commaSp])
      omega
    · rw [if_neg hb]
      omega
  · rw [if_neg h]
    omega

theorem splitGo_mem_length_le (s : List Char) (cs ov : Nat) (hov : ov ≤ cs) :
    ∀ fuel start res, splitGo s cs ov fuel start = some res →
      ∀ c ∈ res, c.length ≤ cs + ov := by
  intro fuel
  induction fuel with
  | zero => intro start res h; exact absurd h (by simp [splitGo])
  | succ f ih =>
    intro start res h c hc
    unfold splitGo at h
    by_cases hs : start < s.length
    · rw [if_pos hs] at h
      dsimp only at h
      cases hgo : splitGo s cs ov f (chooseEnd s cs ov start - ov) with
      | none => rw [hgo] at h; exact absurd h (by simp)
      | some rest =>
        rw [hgo] at h
        have hres := Option.some_inj.mp h
        have hchunk : (pyStrip (pySlice start (chooseEnd s cs ov start) s)).length ≤ cs + ov := by
          calc (pyStrip (pySlice start (chooseEnd s cs ov start) s)).length
              ≤ (pySlice start (chooseEnd s cs ov start) s).length := pyStrip_length_le _
            _ ≤ chooseEnd s cs ov start - start := pySlice_length_le _ _ _
            _ ≤ cs + ov := by have := chooseEnd_le s cs ov start hov; omega
        rw [← hres] at hc
        by_cases hemp : (pyStrip (pySlice start (chooseEnd s cs ov start) s)).isEmpty
        · rw [if_pos hemp] at hc
          exact ih _ rest hgo c hc
        · rw [if_neg hemp] at hc
          rcases List.mem_cons.mp hc with rfl | hc2
          · exact hchunk
          · exact ih _ rest hgo c hc2
    · rw [if_neg hs] at h
      have : res = [] := (Option.some_inj.mp h).symm
      subst this
      exact absurd hc (List.not_mem_nil c)

theorem splitLargeSection_mem_length_le (s : List Char) (cs ov : Nat) (hov : ov ≤ cs)
    (c : List Char) (hc : c ∈ splitLargeSection s cs ov) : c.length ≤ cs + ov := by
  unfold splitLargeSection at hc
  cases hgo : splitGo s cs ov (s.length + 1) 0 with
  | none => rw [hgo] at hc; exact absurd hc (List.not_mem_nil c)
  | some res =>
    rw [hgo] at hc
    exact splitGo_mem_length_le s cs ov hov (s.length + 1) 0 res hgo c hc

theorem sectionsStep_invariant (cs ov : Nat) (hov : 1 ≤ ov) (hcs : 2 * ov < cs)
    (st : List (List Char) × List Char) (content : List Char)
    (hchunks : chunksBounded (cs + 3 * ov / 2 + 2) st.1)
    (hcur : st.2.length ≤ cs + 3 * ov / 2 + 2) :
    chunksBounded (cs + 3 * ov / 2 + 2) (sectionsStep cs ov st content).1 ∧
    (sectionsStep cs ov st content).2.length ≤ cs + 3 * ov / 2 + 2 := by
  have hsplit : ∀ c ∈ splitLargeSection content cs ov, c.length ≤ cs + ov :=
    fun c hc => splitLargeSection_mem_length_le content cs ov (by omega) c hc
  have hpacked :
      chunksBounded (cs + 3 * ov / 2 + 2)
        (if st.2.length + content.length > cs ∧ ¬st.2.isEmpty then
          (st.1 ++ [pyStrip st.2],
           getOverlapText st.2 ov ++
             (if (getOverlapText st.2 ov).isEmpty then [] else nlnlSep) ++ content)
         else
          (st.1, if st.2.isEmpty then content else st.2 ++ nlnlSep ++ content)).1 ∧
      (content.length ≤ cs →
        (if st.2.length + content.length > cs ∧ ¬st.2.isEmpty then
          (st.1 ++ [pyStrip st.2],
           getOverlapText st.2 ov ++
             (if (getOverlapText st.2 ov).isEmpty then [] else nlnlSep) ++ content)
         else
          (st.1, if st.2.isEmpty then content else st.2 ++ nlnlSep ++ content)).2.length ≤
          cs + 3 * ov / 2 + 2) := by
    by_cases hc : st.2.length + content.length > cs ∧ ¬st.2.isEmpty
    · rw [if_pos hc]
      constructor
      · intro c hmem
        rcases List.mem_append.mp hmem with hin | hone
        · exact hchunks c hin
        · rw [List.mem_singleton.mp hone]
          exact le_trans (pyStrip_length_le _) hcur
      · intro hslen
        have hover := getOverlapText_length_le st.2 ov hov
        have hsep : (if (getOverlapText st.2 ov).isEmpty then ([] : List Char)
            else nlnlSep).length ≤ 2 := by
          split
          · simp
          · simp [nlnlSep]
        simp only [List.length_append]
        omega
    · rw [if_neg hc]
      refine ⟨hchunks, ?_⟩
      intro hslen
      dsimp only
      by_cases hemp : st.2.isEmpty
      · rw [if_pos hemp]
        omega
      · rw [if_neg hemp]
        have hle : st.2.length + content.length ≤ cs := by
          rcases not_and_or.mp hc with h | h
          · omega
          · exact absurd (not_not.mp h) hemp
        simp only [List.length_append, nlnlSep]
        simp
        omega
  unfold sectionsStep
  dsimp only
  by_cases hbig : content.length > cs
  · rw [if_pos hbig]
    constructor
    · intro c hmem
      rcases List.mem_append.mp hmem with hin | htail
      · exact hpacked.1 c hin
      · have : c ∈ splitLargeSection content cs ov := List.mem_of_mem_tail htail
        have := hsplit c this
        omega
    · cases hsubs : splitLargeSection content cs ov with
      | nil => simp
      | cons h0 t0 =>
        have : h0 ∈ splitLargeSection content cs ov := by rw [hsubs]; exact List.mem_cons_self _ _
        have := hsplit h0 this
        simp only [List.headD_cons]
        omega
  · rw [if_neg hbig]
    exact ⟨hpacked.1, hpacked.2 (by omega)⟩

theorem sectionsFold_invariant (cs ov : Nat) (hov : 1 ≤ ov) (hcs : 2 * ov < cs) :
    ∀ (sections : List SemanticSection) (st : List (List Char) × List Char),
      chunksBounded (cs + 3 * ov / 2 + 2) st.1 → st.2.length ≤ cs + 3 * ov / 2 + 2 →
      chunksBounded (cs + 3 * ov / 2 + 2)
        (sections.foldl (fun st sec => sectionsStep cs ov st sec.content) st).1 ∧
      (sections.foldl (fun st sec => sectionsStep cs ov st sec.content) st).2.length ≤
        cs + 3 * ov / 2 + 2
  | [], st, h1, h2 => ⟨h1, h2⟩
  | sec :: rest, st, h1, h2 => by
    rw [List.foldl_cons]
    have hstep := sectionsStep_invariant cs ov hov hcs st sec.content h1 h2
    exact sectionsFold_invariant cs ov hov hcs rest _ hstep.1 hstep.2

/-- Claim C1 (amended): for overlap >= 1 and chunkSize > 2*overlap, every
chunk produced by chunk_text has length at most
chunkSize + floor(1.5*overlap) + 2: the blank-line separator between packed
sections is not counted against chunkSize (+2), and the overlap tail seeded
into a fresh accumulator can reach floor(1.5*overlap) characters, so the
claimed bound chunkSize + overlap does not hold in general. -/
theorem claim_C1_amended (text : List Char) (cs ov : Nat) (hov : 1 ≤ ov)
    (hcs : 2 * ov < cs) (c : List Char) (hc : c ∈ chunk_text text cs ov) :
    c.length ≤ cs + 3 * ov / 2 + 2 := by
  unfold chunk_text at hc
  by_cases hlen : text.length ≤ cs
  · rw [if_pos hlen] at hc
    rw [List.mem_singleton.mp hc]
    omega
  · rw [if_neg hlen] at hc
    unfold sectionsToChunks at hc
    have hinv := sectionsFold_invariant cs ov hov hcs (parseWithRegex text) ([], [])
      (fun c hc => absurd hc (List.not_mem_nil c)) (by simp)
    set st := (parseWithRegex text).foldl (fun st sec => sectionsStep cs ov st sec.content)
      ([], []) with hst
    dsimp only at hc
    by_cases hemp : (pyStrip st.2).isEmpty
    · rw [if_pos hemp] at hc
      exact hinv.1 c hc
    · rw [if_neg hemp] at hc
      rcases List.mem_append.mp hc with hin | hone
      · exact hinv.1 c hin
      · rw [List.mem_singleton.mp hone]
        exact le_trans (pyStrip_length_le _) hinv.2

/-- Claim C1 counterexample: the text "aaaa\n\nbbbb" (length 10 > chunkSize)
with chunkSize 8 and overlap 1 is assembled into a single chunk of length 10,
exceeding chunkSize + overlap = 9, because the blank-line separator joining
the two sections is not counted against chunkSize. -/
theorem claim_C1_counterexample :
    (pyStr "aaaa\n\nbbbb").length > 8 ∧
    ¬ (∀ c ∈ chunk_text (pyStr "aaaa\n\nbbbb") 8 1, c.length ≤ 8 + 1) := by decide

theorem claim_C1_witness :
    1 ≤ 1 ∧ 2 * 1 < 8 ∧ pyStr "aaaa\n\nbbbb" ∈ chunk_text (pyStr "aaaa\n\nbbbb") 8 1 ∧
    (pyStr "aaaa\n\nbbbb").length ≤ 8 + 3 * 1 / 2 + 2 :=
  ⟨by decide, by decide, by decide,
   claim_C1_amended (pyStr "aaaa\n\nbbbb") 8 1 (by decide) (by decide)
     (pyStr "aaaa\n\nbbbb") (by decide)⟩
